import Mathlib

/-!
Verification of `LMDBStore.py`, an LMDB-backed key-value store that
serializes keys and values with MessagePack and compresses serialized
values with Zstandard.

The embedding models the store's application-level state as the map of
(serialized-key bytes → stored bytes) entries held by the LMDB
environment, kept in LMDB's native byte-lexicographic key order.  The
external collaborators (the `msgpack`, `zstd` and `lmdb` libraries) are
modelled concretely with the properties the wrapper relies on:
MessagePack is a deterministic, self-describing serializer of structured
values that round-trips; Zstandard frames its output with a non-empty
magic header and decompression inverts compression; LMDB is a
transactional sorted map over byte strings.  Bytes are modelled as
`List Nat` (an abstract symbol alphabet).  Python exceptions are
modelled with `Except`.
-/

namespace LMDBStore

/-- Byte strings, modelled as lists of symbols. -/
abbrev Bytes := List Nat

mutual

/-- The structured application values the store supports: scalars
(`nil`, booleans, integers, strings), nested sequences and keyed
mappings — the value universe of the MessagePack serializer used by
`serialize`/`deserialize` in `LMDBStore.py`. -/
inductive Value : Type where
  | nil : Value
  | bool (b : Bool) : Value
  | int (n : Int) : Value
  | str (s : String) : Value
  | arr (l : ValueList) : Value
  | map (l : PairList) : Value
deriving DecidableEq, Repr

/-- A sequence of `Value`s (the payload of `Value.arr`). -/
inductive ValueList : Type where
  | nil : ValueList
  | cons (v : Value) (l : ValueList) : ValueList
deriving DecidableEq, Repr

/-- A sequence of key/value `Value` pairs (the payload of `Value.map`). -/
inductive PairList : Type where
  | nil : PairList
  | cons (k v : Value) (l : PairList) : PairList
deriving DecidableEq, Repr

end

/-- Number of elements of a `ValueList`. -/
def ValueList.length : ValueList → Nat
  | .nil => 0
  | .cons _ l => l.length + 1

/-- Number of pairs of a `PairList`. -/
def PairList.length : PairList → Nat
  | .nil => 0
  | .cons _ _ l => l.length + 1

/-- Concatenation of `ValueList`s (Python list `+`/`append`). -/
def ValueList.append : ValueList → ValueList → ValueList
  | .nil, l2 => l2
  | .cons v l, l2 => .cons v (l.append l2)

/-- Python exceptions raised by the code paths of `LMDBStore.py`:
`KeyError` (`__delitem__` on an absent key), `ValueError` (`set_multi`
length mismatch), `AttributeError` (`.append` on a non-list), plus the
decode-error families of the external `zstd` and `msgpack` libraries. -/
inductive PyErr : Type where
  | keyError : PyErr
  | valueError : PyErr
  | attributeError : PyErr
  | zstdError : PyErr
  | msgpackError : PyErr
deriving DecidableEq, Repr

mutual

/-- Model of `serialize` (`LMDBStore.py` line 114-123, `msgpack.dumps`):
a deterministic, self-describing, injective encoding of a structured
value into bytes.  Each value is a tag symbol followed by its payload;
sequences and mappings are length-prefixed, as in MessagePack. -/
def serialize : Value → Bytes
  | .nil => [0]
  | .bool b => [1, cond b 1 0]
  | .int n => [2, if n < 0 then 1 else 0, n.natAbs]
  | .str s => 3 :: s.data.length :: s.data.map Char.toNat
  | .arr l => 4 :: l.length :: serializeList l
  | .map l => 5 :: l.length :: serializePairs l

/-- Serialization of the elements of a sequence, concatenated. -/
def serializeList : ValueList → Bytes
  | .nil => []
  | .cons v l => serialize v ++ serializeList l

/-- Serialization of the pairs of a mapping, concatenated. -/
def serializePairs : PairList → Bytes
  | .nil => []
  | .cons k v l => serialize k ++ serialize v ++ serializePairs l

end

/-- Decoder for the string payload: reads `n` character symbols. -/
def decodeStr : Nat → Bytes → Option (List Char × Bytes)
  | 0, bs => some ([], bs)
  | _ + 1, [] => none
  | n + 1, c :: bs =>
    match decodeStr n bs with
    | some (cs, r) => some (Char.ofNat c :: cs, r)
    | none => none

mutual

/-- Fuelled decoder for one serialized value (model of `msgpack.loads`,
used by `deserialize`): reads one tagged value off the front of the
byte string and returns it with the unconsumed remainder. -/
def decodeVal : Nat → Bytes → Option (Value × Bytes)
  | 0, _ => none
  | _ + 1, [] => none
  | f + 1, t :: bs =>
    match t, bs with
    | 0, r => some (.nil, r)
    | 1, b :: r => if b ≤ 1 then some (.bool (b == 1), r) else none
    | 2, s :: m :: r =>
      if s = 0 then some (.int (Int.ofNat m), r)
      else if s = 1 then some (.int (-(Int.ofNat m)), r)
      else none
    | 3, n :: r =>
      match decodeStr n r with
      | some (cs, r2) => some (.str ⟨cs⟩, r2)
      | none => none
    | 4, n :: r =>
      match decodeVals f n r with
      | some (l, r2) => some (.arr l, r2)
      | none => none
    | 5, n :: r =>
      match decodePairs f n r with
      | some (l, r2) => some (.map l, r2)
      | none => none
    | _, _ => none

/-- Fuelled decoder for `n` consecutive serialized values. -/
def decodeVals : Nat → Nat → Bytes → Option (ValueList × Bytes)
  | _, 0, bs => some (.nil, bs)
  | 0, _ + 1, _ => none
  | f + 1, n + 1, bs =>
    match decodeVal f bs with
    | some (v, r) =>
      match decodeVals f n r with
      | some (l, r2) => some (.cons v l, r2)
      | none => none
    | none => none

/-- Fuelled decoder for `n` consecutive serialized key/value pairs. -/
def decodePairs : Nat → Nat → Bytes → Option (PairList × Bytes)
  | _, 0, bs => some (.nil, bs)
  | 0, _ + 1, _ => none
  | f + 1, n + 1, bs =>
    match decodeVal f bs with
    | some (k, r) =>
      match decodeVal f r with
      | some (v, r2) =>
        match decodePairs f n r2 with
        | some (l, r3) => some (.cons k v l, r3)
        | none => none
      | none => none
    | none => none

end

/-- Model of `deserialize` (`LMDBStore.py` line 125-134,
`msgpack.loads`): decodes one value and requires the whole input to be
consumed, failing on malformed or trailing bytes. -/
def deserialize (bs : Bytes) : Except PyErr Value :=
  match decodeVal (2 * bs.length) bs with
  | some (v, []) => Except.ok v
  | _ => Except.error PyErr.msgpackError

/-- The Zstandard frame magic header: compressed output always starts
with it, so compressed bytes are never the empty byte string. -/
def zstdMagic : Bytes := [40, 181, 47, 253]

/-- Model of `zstd.compress(data, 9, 2)`: frames the input behind the
Zstandard magic header.  The compression level arguments `(9, 2)` only
affect the compression ratio, which the model does not track. -/
def zstdCompress (bs : Bytes) : Bytes := zstdMagic ++ bs

/-- Model of `zstd.decompress`: inverts `zstdCompress`, raising a
`zstd` error on input that does not carry the magic frame header. -/
def zstdDecompress : Bytes → Except PyErr Bytes
  | 40 :: 181 :: 47 :: 253 :: rest => Except.ok rest
  | _ => Except.error PyErr.zstdError

/-- `compress` (`LMDBStore.py` line 136-145): serialize the value, then
Zstandard-compress the serialized bytes
(`zstd.compress(self.serialize(value), 9, 2)`). -/
def compress (value : Value) : Bytes := zstdCompress (serialize value)

/-- `decompress` (`LMDBStore.py` line 147-158): on a falsy input
(`None` from a missed lookup, or the empty byte string) return a fresh
empty list as the default value; otherwise Zstandard-decompress and
deserialize (`self.deserialize(zstd.decompress(compressed_value))`). -/
def decompress : Option Bytes → Except PyErr Value
  | none => Except.ok (Value.arr ValueList.nil)
  | some [] => Except.ok (Value.arr ValueList.nil)
  | some (b :: bs) =>
    match zstdDecompress (b :: bs) with
    | Except.ok d => deserialize d
    | Except.error e => Except.error e

/-! ### The LMDB environment

LMDB is a transactional B-tree over byte strings, comparing keys
byte-lexicographically.  Its committed state is modelled as an
association list of (key bytes, value bytes) entries kept in strictly
increasing key order; each operation below models the effect of the
corresponding `lmdb` API call inside one transaction. -/

/-- Byte-lexicographic strict order on byte strings, as LMDB's default
key comparator (memcmp order, shorter prefix first). -/
def bytesLt : Bytes → Bytes → Bool
  | [], [] => false
  | [], _ :: _ => true
  | _ :: _, [] => false
  | a :: as, b :: bs => a < b || (a == b && bytesLt as bs)

/-- The committed contents of the LMDB environment. -/
abbrev Store := List (Bytes × Bytes)

/-- A freshly created, empty environment. -/
def emptyStore : Store := []

/-- The environment invariant: entries are in strictly increasing
byte-lexicographic key order (LMDB's native storage order). -/
def dbSorted (db : Store) : Prop :=
  db.Pairwise (fun a b => bytesLt a.1 b.1 = true)

/-- `txn.get(key)` / `cursor.get(key)`: the stored bytes at a key, or
`None` when the key is absent. -/
def dbGet (k : Bytes) : Store → Option Bytes
  | [] => none
  | (k', v') :: rest => if k = k' then some v' else dbGet k rest

/-- `txn.put(key, value)` / `cursor.put(key, value)`: inserts the entry
at its ordered position, replacing the stored value in full when the
key is already present. -/
def dbPut (k v : Bytes) : Store → Store
  | [] => [(k, v)]
  | (k', v') :: rest =>
    if bytesLt k k' then (k, v) :: (k', v') :: rest
    else if k = k' then (k, v) :: rest
    else (k', v') :: dbPut k v rest

/-- `txn.delete(key)`: removes the entry when present; returns whether
an entry was deleted together with the resulting contents. -/
def dbDelete (k : Bytes) : Store → Bool × Store
  | [] => (false, [])
  | (k', v') :: rest =>
    if k = k' then (true, rest)
    else
      match dbDelete k rest with
      | (b, r) => (b, (k', v') :: r)

/-- `cursor.set_key(key)`: positions at the exact key, returning
whether it is present. -/
def dbSetKey (k : Bytes) (db : Store) : Bool :=
  (dbGet k db).isSome

/-! ### The `LMDBStore` operations -/

/-- `__getitem__` (`LMDBStore.py` line 55-66): look up the serialized
key in a read transaction and decompress the result (the default empty
list when absent). -/
def get_item (key : Value) (st : Store) : Except PyErr Value :=
  decompress (dbGet (serialize key) st)

/-- `__setitem__` (`LMDBStore.py` line 68-77): store
`compress(value)` at `serialize(key)` in a write transaction,
overwriting any prior value. -/
def set_item (key value : Value) (st : Store) : Store :=
  dbPut (serialize key) (compress value) st

/-- `__delitem__` (`LMDBStore.py` line 79-88): delete the serialized
key; raise `KeyError` when `txn.delete` reports the key absent. -/
def del_item (key : Value) (st : Store) : Except PyErr Store :=
  match dbDelete (serialize key) st with
  | (true, st') => Except.ok st'
  | (false, _) => Except.error PyErr.keyError

/-- `__contains__` (`LMDBStore.py` line 90-100): cursor-seek the
serialized key exactly. -/
def contains_key (key : Value) (st : Store) : Bool :=
  dbSetKey (serialize key) st

/-- `__len__` (`LMDBStore.py` line 110-112): the entry count reported
by `env.stat()["entries"]`, i.e. the number of committed entries. -/
def lenEntries (st : Store) : Nat := st.length

/-- `keys` (`LMDBStore.py` line 160-169): forward cursor iteration,
deserializing each stored key. -/
def storeKeys (st : Store) : List (Except PyErr Value) :=
  st.map (fun e => deserialize e.1)

/-- `values` (`LMDBStore.py` line 171-180): forward cursor iteration,
decompressing each stored value. -/
def storeValues (st : Store) : List (Except PyErr Value) :=
  st.map (fun e => decompress (some e.2))

/-- `items` (`LMDBStore.py` line 182-191): forward cursor iteration,
yielding each deserialized key with its decompressed value. -/
def storeItems (st : Store) : List (Except PyErr Value × Except PyErr Value) :=
  st.map (fun e => (deserialize e.1, decompress (some e.2)))

/-- `get_multi` (`LMDBStore.py` line 193-205): one read transaction,
looking up each key in input order and decompressing each result. -/
def get_multi (keys : List Value) (st : Store) : List (Except PyErr Value) :=
  keys.map (fun k => decompress (dbGet (serialize k) st))

/-- Python `val.append(value)`: appends when `val` is a list, raises
`AttributeError` on any non-list value (scalar or mapping), exactly as
the unguarded `val.append(value)` in `set_multi` does. -/
def listAppend (val x : Value) : Except PyErr Value :=
  match val with
  | .arr l => Except.ok (Value.arr (l.append (ValueList.cons x ValueList.nil)))
  | _ => Except.error PyErr.attributeError

/-- The loop body of `set_multi` (`LMDBStore.py` line 221-226): for
each pair in order, read and decompress the current stored bytes at
the key, append the new value to the resulting list, and write the
compressed result back.  An exception aborts the whole transaction. -/
def setMultiGo : List (Value × Value) → Store → Except PyErr Store
  | [], st => Except.ok st
  | (k, v) :: rest, st =>
    match decompress (dbGet (serialize k) st) with
    | Except.ok val =>
      match listAppend val v with
      | Except.ok val2 => setMultiGo rest (dbPut (serialize k) (compress val2) st)
      | Except.error e => Except.error e
    | Except.error e => Except.error e

/-- `set_multi` (`LMDBStore.py` line 207-226): raises `ValueError`
when the key and value counts differ, before opening the write
transaction; otherwise runs the append loop over `zip(keys, values)`
in one write transaction. -/
def set_multi (keys values : List Value) (st : Store) : Except PyErr Store :=
  if keys.length ≠ values.length then Except.error PyErr.valueError
  else setMultiGo (keys.zip values) st

/-- The effect of a write transaction on the committed state: a raised
exception propagates out of the `with` block, aborting the transaction
and leaving the environment unchanged. -/
def runTxn (r : Except PyErr Store) (st : Store) : Store :=
  match r with
  | Except.ok st' => st'
  | Except.error _ => st

/-- Whether a Python-level call returning a store state completed
without raising. -/
def exOk : Except PyErr Store → Bool
  | Except.ok _ => true
  | Except.error _ => false

/-- Whether a value is a Python list (the only values whose `.append`
attribute exists). -/
def Value.isArr : Value → Bool
  | .arr _ => true
  | _ => false

/-- A sequence of single-key `__setitem__` calls, in order. -/
def insertList : List (Value × Value) → Store → Store
  | [], st => st
  | (k, v) :: rest, st => insertList rest (set_item k v st)

/-- A sequence of single-key `__delitem__` calls, in order, stopping
at the first raised exception. -/
def deleteList : List Value → Store → Except PyErr Store
  | [], st => Except.ok st
  | k :: rest, st =>
    match del_item k st with
    | Except.ok st' => deleteList rest st'
    | Except.error e => Except.error e

/-! ### Size measures for the decoder fuel -/

mutual

/-- Number of decoding steps needed for one value. -/
def sizeV : Value → Nat
  | .nil => 1
  | .bool _ => 1
  | .int _ => 1
  | .str _ => 1
  | .arr l => sizeVL l + 1
  | .map l => sizePL l + 1

/-- Number of decoding steps needed for a sequence of values. -/
def sizeVL : ValueList → Nat
  | .nil => 0
  | .cons v l => sizeV v + sizeVL l + 1

/-- Number of decoding steps needed for a sequence of pairs. -/
def sizePL : PairList → Nat
  | .nil => 0
  | .cons k v l => sizeV k + sizeV v + sizePL l + 1

end

theorem one_le_sizeV (v : Value) : 1 ≤ sizeV v := by
  cases v <;> simp [sizeV]

mutual

theorem sizeV_le_serialize (v : Value) : sizeV v + 1 ≤ 2 * (serialize v).length := by
  cases v with
  | nil => simp [sizeV, serialize]
  | bool b => simp [sizeV, serialize]
  | int n => simp [sizeV, serialize]
  | str s => simp [sizeV, serialize]
  | arr l =>
    have h := sizeVL_le_serializeList l
    simp only [sizeV, serialize, List.length_cons]
    omega
  | map l =>
    have h := sizePL_le_serializePairs l
    simp only [sizeV, serialize, List.length_cons]
    omega

theorem sizeVL_le_serializeList (l : ValueList) : sizeVL l ≤ 2 * (serializeList l).length := by
  cases l with
  | nil => simp [sizeVL, serializeList]
  | cons v l =>
    have h1 := sizeV_le_serialize v
    have h2 := sizeVL_le_serializeList l
    simp only [sizeVL, serializeList, List.length_append]
    omega

theorem sizePL_le_serializePairs (l : PairList) : sizePL l ≤ 2 * (serializePairs l).length := by
  cases l with
  | nil => simp [sizePL, serializePairs]
  | cons k v l =>
    have h1 := sizeV_le_serialize k
    have h2 := sizeV_le_serialize v
    have h3 := sizePL_le_serializePairs l
    simp only [sizePL, serializePairs, List.length_append]
    omega

end

theorem decodeStr_roundtrip (cs : List Char) (rest : Bytes) :
    decodeStr cs.length (cs.map Char.toNat ++ rest) = some (cs, rest) := by
  induction cs with
  | nil => rfl
  | cons c cs ih => simp [decodeStr, ih, Char.ofNat_toNat]

theorem decode_serialize_aux (f : Nat) :
    (∀ v rest, sizeV v ≤ f → decodeVal f (serialize v ++ rest) = some (v, rest)) ∧
    (∀ l rest, sizeVL l ≤ f →
      decodeVals f l.length (serializeList l ++ rest) = some (l, rest)) ∧
    (∀ l rest, sizePL l ≤ f →
      decodePairs f l.length (serializePairs l ++ rest) = some (l, rest)) := by
  induction f with
  | zero =>
    refine ⟨fun v rest h => absurd h (by have := one_le_sizeV v; omega), ?_, ?_⟩
    · intro l rest h
      cases l with
      | nil => rfl
      | cons v l => simp [sizeVL] at h
    · intro l rest h
      cases l with
      | nil => rfl
      | cons k v l => simp [sizePL] at h
  | succ f ih =>
    obtain ⟨ihV, ihL, ihP⟩ := ih
    have hV : ∀ v rest, sizeV v ≤ f + 1 →
        decodeVal (f + 1) (serialize v ++ rest) = some (v, rest) := by
      intro v rest h
      cases v with
      | nil => rfl
      | bool b => cases b <;> rfl
      | int n =>
        by_cases hn : n < 0
        · have hs : serialize (Value.int n) = [2, 1, n.natAbs] := by simp [serialize, hn]
          rw [hs]
          exact congrArg (fun m => some (Value.int m, rest))
            (show -((n.natAbs : Int)) = n by omega)
        · have hs : serialize (Value.int n) = [2, 0, n.natAbs] := by simp [serialize, hn]
          rw [hs]
          exact congrArg (fun m => some (Value.int m, rest))
            (show ((n.natAbs : Int)) = n by omega)
      | str s =>
        simp only [serialize, List.cons_append, List.append_assoc, decodeVal]
        rw [decodeStr_roundtrip]
      | arr l =>
        simp only [serialize, List.cons_append, decodeVal]
        rw [ihL l rest (by simp [sizeV] at h; omega)]
      | map l =>
        simp only [serialize, List.cons_append, decodeVal]
        rw [ihP l rest (by simp [sizeV] at h; omega)]
    refine ⟨hV, ?_, ?_⟩
    · intro l rest h
      cases l with
      | nil => rfl
      | cons v l =>
        simp only [sizeVL] at h
        simp only [serializeList, ValueList.length, List.append_assoc, decodeVals,
          ihV v (serializeList l ++ rest) (by omega), ihL l rest (by omega)]
    · intro l rest h
      cases l with
      | nil => rfl
      | cons k v l =>
        simp only [sizePL] at h
        simp only [serializePairs, PairList.length, List.append_assoc, decodePairs,
          ihV k (serialize v ++ (serializePairs l ++ rest)) (by omega),
          ihV v (serializePairs l ++ rest) (by omega), ihP l rest (by omega)]

theorem deserialize_serialize (v : Value) : deserialize (serialize v) = Except.ok v := by
  have hf := (decode_serialize_aux (2 * (serialize v).length)).1 v []
    (by have := sizeV_le_serialize v; omega)
  rw [List.append_nil] at hf
  simp [deserialize, hf]

theorem serialize_injective : Function.Injective serialize := by
  intro a b h
  have ha := deserialize_serialize a
  rw [h, deserialize_serialize b] at ha
  injection ha with h2
  exact h2.symm

theorem decompress_compress (v : Value) : decompress (some (compress v)) = Except.ok v := by
  simp [compress, zstdCompress, zstdMagic, decompress, zstdDecompress, deserialize_serialize]

/-! ### Properties of the byte-lexicographic order -/

theorem bytesLt_cons_iff {x y : Nat} {xs ys : Bytes} :
    bytesLt (x :: xs) (y :: ys) = true ↔ x < y ∨ (x = y ∧ bytesLt xs ys = true) := by
  simp [bytesLt]

theorem bytesLt_irrefl (a : Bytes) : bytesLt a a = false := by
  induction a with
  | nil => rfl
  | cons x xs ih => simp [bytesLt, ih]

theorem bytesLt_ne {a b : Bytes} (h : bytesLt a b = true) : a ≠ b := by
  intro he
  rw [he, bytesLt_irrefl] at h
  exact Bool.false_ne_true h

theorem bytesLt_asymm : ∀ {a b : Bytes}, bytesLt a b = true → bytesLt b a = false := by
  intro a
  induction a with
  | nil =>
    intro b h
    cases b with
    | nil => simp [bytesLt] at h
    | cons y ys => rfl
  | cons x xs ih =>
    intro b h
    cases b with
    | nil => simp [bytesLt] at h
    | cons y ys =>
      rw [bytesLt_cons_iff] at h
      rw [Bool.eq_false_iff]
      intro h2
      rw [bytesLt_cons_iff] at h2
      rcases h with h | ⟨rfl, h⟩
      · rcases h2 with h2 | ⟨rfl, h2⟩
        · omega
        · omega
      · rcases h2 with h2 | ⟨_, h2⟩
        · omega
        · exact Bool.false_ne_true ((ih h).symm.trans h2)

theorem bytesLt_trans : ∀ {a b c : Bytes},
    bytesLt a b = true → bytesLt b c = true → bytesLt a c = true := by
  intro a
  induction a with
  | nil =>
    intro b c hab hbc
    cases b with
    | nil => simp [bytesLt] at hab
    | cons y ys =>
      cases c with
      | nil => simp [bytesLt] at hbc
      | cons z zs => rfl
  | cons x xs ih =>
    intro b c hab hbc
    cases b with
    | nil => simp [bytesLt] at hab
    | cons y ys =>
      cases c with
      | nil => simp [bytesLt] at hbc
      | cons z zs =>
        rw [bytesLt_cons_iff] at hab hbc ⊢
        rcases hab with h1 | ⟨rfl, h1⟩
        · rcases hbc with h2 | ⟨rfl, h2⟩
          · exact Or.inl (by omega)
          · exact Or.inl h1
        · rcases hbc with h2 | ⟨rfl, h2⟩
          · exact Or.inl h2
          · exact Or.inr ⟨rfl, ih h1 h2⟩

theorem bytesLt_total : ∀ a b : Bytes, a = b ∨ bytesLt a b = true ∨ bytesLt b a = true := by
  intro a
  induction a with
  | nil =>
    intro b
    cases b with
    | nil => exact Or.inl rfl
    | cons y ys => exact Or.inr (Or.inl rfl)
  | cons x xs ih =>
    intro b
    cases b with
    | nil => exact Or.inr (Or.inr rfl)
    | cons y ys =>
      rcases Nat.lt_trichotomy x y with h | rfl | h
      · exact Or.inr (Or.inl (bytesLt_cons_iff.mpr (Or.inl h)))
      · rcases ih ys with h2 | h2 | h2
        · exact Or.inl (by rw [h2])
        · exact Or.inr (Or.inl (bytesLt_cons_iff.mpr (Or.inr ⟨rfl, h2⟩)))
        · exact Or.inr (Or.inr (bytesLt_cons_iff.mpr (Or.inr ⟨rfl, h2⟩)))
      · exact Or.inr (Or.inr (bytesLt_cons_iff.mpr (Or.inl h)))

/-! ### Properties of the environment operations -/

theorem dbGet_dbPut_self (k v : Bytes) (db : Store) : dbGet k (dbPut k v db) = some v := by
  induction db with
  | nil => simp [dbPut, dbGet]
  | cons e rest ih =>
    obtain ⟨a, b⟩ := e
    by_cases h1 : bytesLt k a
    · simp [dbPut, h1, dbGet]
    · by_cases h2 : k = a
      · subst h2
        simp [dbPut, bytesLt_irrefl, dbGet]
      · simp [dbPut, h1, h2, dbGet, ih]

theorem dbGet_dbPut_ne {q k : Bytes} (v : Bytes) (db : Store) (h : q ≠ k) :
    dbGet q (dbPut k v db) = dbGet q db := by
  induction db with
  | nil => simp [dbPut, dbGet, h]
  | cons e rest ih =>
    obtain ⟨a, b⟩ := e
    by_cases h1 : bytesLt k a
    · simp [dbPut, h1, dbGet, h]
    · by_cases h2 : k = a
      · subst h2
        simp [dbPut, h1, dbGet, h]
      · by_cases h3 : q = a <;> simp [dbPut, h1, h2, dbGet, h3, ih]

theorem mem_dbPut {e : Bytes × Bytes} {k v : Bytes} {db : Store}
    (h : e ∈ dbPut k v db) : e.1 = k ∨ e ∈ db := by
  induction db with
  | nil =>
    simp [dbPut] at h
    exact Or.inl (by rw [h])
  | cons p rest ih =>
    obtain ⟨a, b⟩ := p
    by_cases h1 : bytesLt k a
    · simp only [dbPut, if_pos h1, List.mem_cons] at h
      rcases h with rfl | h | h
      · exact Or.inl rfl
      · exact Or.inr (by simp [h])
      · exact Or.inr (by simp [h])
    · by_cases h2 : k = a
      · simp only [dbPut, if_neg h1, if_pos h2, List.mem_cons] at h
        rcases h with rfl | h
        · exact Or.inl rfl
        · exact Or.inr (by simp [h])
      · simp only [dbPut, if_neg h1, if_neg h2, List.mem_cons] at h
        rcases h with rfl | h
        · exact Or.inr (by simp)
        · rcases ih h with h3 | h3
          · exact Or.inl h3
          · exact Or.inr (by simp [h3])

theorem dbSorted_dbPut {db : Store} (k v : Bytes) (h : dbSorted db) :
    dbSorted (dbPut k v db) := by
  induction db with
  | nil => simp [dbPut, dbSorted]
  | cons e rest ih =>
    obtain ⟨a, b⟩ := e
    rw [dbSorted, List.pairwise_cons] at h
    obtain ⟨hhead, htail⟩ := h
    by_cases h1 : bytesLt k a
    · rw [dbSorted]
      simp only [dbPut, if_pos h1]
      rw [List.pairwise_cons]
      refine ⟨?_, List.pairwise_cons.mpr ⟨hhead, htail⟩⟩
      intro e he
      rcases List.mem_cons.mp he with rfl | he
      · exact h1
      · exact bytesLt_trans h1 (hhead e he)
    · by_cases h2 : k = a
      · subst h2
        rw [dbSorted]
        simp only [dbPut, if_neg h1, if_pos rfl]
        exact List.pairwise_cons.mpr ⟨hhead, htail⟩
      · rw [dbSorted]
        simp only [dbPut, if_neg h1, if_neg h2]
        rw [List.pairwise_cons]
        refine ⟨?_, ih htail⟩
        intro e he
        rcases mem_dbPut he with h3 | h3
        · rw [h3]
          rcases bytesLt_total k a with h4 | h4 | h4
          · exact absurd h4 h2
          · exact absurd h4 h1
          · exact h4
        · exact hhead e h3

theorem dbGet_mem {k w : Bytes} : ∀ {db : Store}, dbGet k db = some w → (k, w) ∈ db := by
  intro db
  induction db with
  | nil => intro h; simp [dbGet] at h
  | cons e rest ih =>
    obtain ⟨a, b⟩ := e
    intro h
    by_cases h1 : k = a
    · subst h1
      simp [dbGet] at h
      subst h
      exact List.mem_cons_self _ _
    · simp only [dbGet, if_neg h1] at h
      exact List.mem_cons_of_mem _ (ih h)

theorem dbGet_eq_none_of_forall {k : Bytes} : ∀ {db : Store},
    (∀ e ∈ db, e.1 ≠ k) → dbGet k db = none := by
  intro db
  induction db with
  | nil => intro _; rfl
  | cons e rest ih =>
    obtain ⟨a, b⟩ := e
    intro h
    have ha : a ≠ k := h (a, b) (List.mem_cons_self _ _)
    have hka : ¬(k = a) := fun he => ha he.symm
    simp only [dbGet, if_neg hka]
    exact ih (fun e he => h e (List.mem_cons_of_mem _ he))

theorem length_dbPut_absent {k : Bytes} (v : Bytes) : ∀ {db : Store},
    dbGet k db = none → (dbPut k v db).length = db.length + 1 := by
  intro db
  induction db with
  | nil => intro _; rfl
  | cons e rest ih =>
    obtain ⟨a, b⟩ := e
    intro h
    by_cases h1 : k = a
    · rw [dbGet, if_pos h1] at h
      exact absurd h (by simp)
    · rw [dbGet, if_neg h1] at h
      by_cases h2 : bytesLt k a
      · simp [dbPut, h2]
      · simp [dbPut, h2, h1, ih h]

theorem length_dbPut_present {k w : Bytes} (v : Bytes) : ∀ {db : Store},
    dbSorted db → dbGet k db = some w → (dbPut k v db).length = db.length := by
  intro db
  induction db with
  | nil => intro _ h; simp [dbGet] at h
  | cons e rest ih =>
    obtain ⟨a, b⟩ := e
    intro hs h
    rw [dbSorted, List.pairwise_cons] at hs
    obtain ⟨hhead, htail⟩ := hs
    by_cases h1 : k = a
    · subst h1
      simp [dbPut, bytesLt_irrefl]
    · rw [dbGet, if_neg h1] at h
      have hmem := dbGet_mem h
      have hlt : bytesLt a k = true := hhead (k, w) hmem
      have h2 : bytesLt k a = false := bytesLt_asymm hlt
      simp [dbPut, h2, h1, ih htail h]

theorem dbDelete_fst (k : Bytes) : ∀ db : Store, (dbDelete k db).1 = (dbGet k db).isSome := by
  intro db
  induction db with
  | nil => rfl
  | cons e rest ih =>
    obtain ⟨a, b⟩ := e
    by_cases h1 : k = a
    · simp [dbDelete, dbGet, h1]
    · simp [dbDelete, dbGet, h1, ih]

theorem dbDelete_snd_absent {k : Bytes} : ∀ {db : Store},
    dbGet k db = none → (dbDelete k db).2 = db := by
  intro db
  induction db with
  | nil => intro _; rfl
  | cons e rest ih =>
    obtain ⟨a, b⟩ := e
    intro h
    by_cases h1 : k = a
    · rw [dbGet, if_pos h1] at h
      exact absurd h (by simp)
    · rw [dbGet, if_neg h1] at h
      simp [dbDelete, h1, ih h]

theorem dbDelete_sublist (k : Bytes) : ∀ db : Store, (dbDelete k db).2.Sublist db := by
  intro db
  induction db with
  | nil => simp [dbDelete]
  | cons e rest ih =>
    obtain ⟨a, b⟩ := e
    by_cases h1 : k = a
    · simp only [dbDelete, if_pos h1]
      exact List.sublist_cons_self _ _
    · simp only [dbDelete, if_neg h1]
      cases hd : dbDelete k rest with
      | mk found r =>
        rw [hd] at ih
        exact List.Sublist.cons₂ (a, b) ih

theorem dbSorted_dbDelete {k : Bytes} {db : Store} (h : dbSorted db) :
    dbSorted (dbDelete k db).2 :=
  List.Pairwise.sublist (dbDelete_sublist k db) h

theorem dbGet_dbDelete_self (k : Bytes) : ∀ {db : Store},
    dbSorted db → dbGet k (dbDelete k db).2 = none := by
  intro db
  induction db with
  | nil => intro _; rfl
  | cons e rest ih =>
    obtain ⟨a, b⟩ := e
    intro hs
    rw [dbSorted, List.pairwise_cons] at hs
    obtain ⟨hhead, htail⟩ := hs
    by_cases h1 : k = a
    · subst h1
      simp only [dbDelete, if_pos rfl]
      exact dbGet_eq_none_of_forall (fun e he => (bytesLt_ne (hhead e he)).symm)
    · simp only [dbDelete, if_neg h1]
      have := ih htail
      cases hd : dbDelete k rest with
      | mk found r => simpa [dbGet, h1, hd] using (by rw [hd] at this; exact this)

theorem dbGet_dbDelete_ne {q k : Bytes} (h : q ≠ k) : ∀ db : Store,
    dbGet q (dbDelete k db).2 = dbGet q db := by
  intro db
  induction db with
  | nil => rfl
  | cons e rest ih =>
    obtain ⟨a, b⟩ := e
    by_cases h1 : k = a
    · subst h1
      simp [dbDelete, dbGet, h]
    · by_cases h2 : q = a
      · subst h2
        cases hd : dbDelete k rest with
        | mk found r => simp [dbDelete, h1, hd, dbGet]
      · cases hd : dbDelete k rest with
        | mk found r =>
          have := ih
          rw [hd] at this
          simp [dbDelete, h1, hd, dbGet, h2, this]

theorem length_dbDelete {k : Bytes} : ∀ {db : Store},
    (dbGet k db).isSome → (dbDelete k db).2.length + 1 = db.length := by
  intro db
  induction db with
  | nil => intro h; simp [dbGet] at h
  | cons e rest ih =>
    obtain ⟨a, b⟩ := e
    intro h
    by_cases h1 : k = a
    · simp [dbDelete, h1]
    · rw [dbGet, if_neg h1] at h
      cases hd : dbDelete k rest with
      | mk found r =>
        have h2 : r.length + 1 = rest.length := by
          have h3 := ih h
          rw [hd] at h3
          exact h3
        simp [dbDelete, h1, hd]
        omega

theorem db_ext : ∀ {db1 db2 : Store}, dbSorted db1 → dbSorted db2 →
    (∀ k, dbGet k db1 = dbGet k db2) → db1 = db2 := by
  intro db1
  induction db1 with
  | nil =>
    intro db2 _ _ h
    cases db2 with
    | nil => rfl
    | cons e rest =>
      obtain ⟨a, b⟩ := e
      have := h a
      simp [dbGet] at this
  | cons e r1 ih =>
    obtain ⟨a, b⟩ := e
    intro db2 hs1 hs2 h
    cases db2 with
    | nil =>
      have := h a
      simp [dbGet] at this
    | cons f r2 =>
      obtain ⟨c, d⟩ := f
      rw [dbSorted, List.pairwise_cons] at hs1 hs2
      obtain ⟨hh1, ht1⟩ := hs1
      obtain ⟨hh2, ht2⟩ := hs2
      have hac : a = c := by
        by_contra hne
        have h1 : dbGet a ((c, d) :: r2) = some b := by
          rw [← h a]; simp [dbGet]
        rw [dbGet, if_neg hne] at h1
        have hm1 := dbGet_mem h1
        have hca : bytesLt c a = true := hh2 (a, b) hm1
        have h2 : dbGet c ((a, b) :: r1) = some d := by
          rw [h c]; simp [dbGet]
        rw [dbGet, if_neg (fun he => hne he.symm)] at h2
        have hm2 := dbGet_mem h2
        have hacb : bytesLt a c = true := hh1 (c, d) hm2
        rw [bytesLt_asymm hacb] at hca
        exact Bool.false_ne_true hca
      subst hac
      have hbd : b = d := by
        have := h a
        simp [dbGet] at this
        exact this
      subst hbd
      have htails : ∀ k, dbGet k r1 = dbGet k r2 := by
        intro k
        by_cases hk : k = a
        · subst hk
          rw [dbGet_eq_none_of_forall (fun e he => (bytesLt_ne (hh1 e he)).symm),
            dbGet_eq_none_of_forall (fun e he => (bytesLt_ne (hh2 e he)).symm)]
        · have := h k
          rw [dbGet, dbGet, if_neg hk, if_neg hk] at this
          exact this
      rw [ih ht1 ht2 htails]

/-! ### Store-level helper lemmas -/

theorem ValueList.append_assoc : ∀ a b c : ValueList,
    (a.append b).append c = a.append (b.append c)
  | .nil, _, _ => rfl
  | .cons v l, b, c => by
    simp [ValueList.append, ValueList.append_assoc l b c]

theorem get_item_set_item_self (k v : Value) (st : Store) :
    get_item k (set_item k v st) = Except.ok v := by
  show decompress (dbGet (serialize k) (dbPut (serialize k) (compress v) st)) = _
  rw [dbGet_dbPut_self]
  exact decompress_compress v

theorem get_item_set_item_ne {q k : Value} (h : serialize q ≠ serialize k) (v : Value)
    (st : Store) : get_item q (set_item k v st) = get_item q st := by
  show decompress (dbGet (serialize q) (dbPut (serialize k) (compress v) st)) =
    decompress (dbGet (serialize q) st)
  rw [dbGet_dbPut_ne _ _ h]

theorem dbGet_none_of_not_contains {k : Value} {st : Store}
    (h : contains_key k st = false) : dbGet (serialize k) st = none := by
  have h' : (dbGet (serialize k) st).isSome = false := h
  cases hg : dbGet (serialize k) st with
  | none => rfl
  | some w => rw [hg] at h'; simp at h'

theorem get_item_absent {k : Value} {st : Store} (h : contains_key k st = false) :
    get_item k st = Except.ok (Value.arr ValueList.nil) := by
  show decompress (dbGet (serialize k) st) = _
  rw [dbGet_none_of_not_contains h]
  rfl

theorem setMultiGo_cons {k v : Value} {st : Store} {l : ValueList}
    (rest : List (Value × Value))
    (h : decompress (dbGet (serialize k) st) = Except.ok (Value.arr l)) :
    setMultiGo ((k, v) :: rest) st =
      setMultiGo rest
        (dbPut (serialize k) (compress (Value.arr (l.append (ValueList.cons v ValueList.nil)))) st) := by
  simp only [setMultiGo, h, listAppend]

theorem insertList_spec : ∀ (kvs : List (Value × Value)) (st : Store),
    dbSorted st → (kvs.map (fun p => serialize p.1)).Nodup →
    (∀ p ∈ kvs, dbGet (serialize p.1) st = none) →
    dbSorted (insertList kvs st) ∧
    (insertList kvs st).length = st.length + kvs.length ∧
    (∀ p ∈ kvs, (dbGet (serialize p.1) (insertList kvs st)).isSome = true) ∧
    (∀ b : Bytes, (∀ p ∈ kvs, b ≠ serialize p.1) →
      dbGet b (insertList kvs st) = dbGet b st) := by
  intro kvs
  induction kvs with
  | nil =>
    intro st hs _ _
    exact ⟨hs, by simp [insertList], by simp, fun b _ => rfl⟩
  | cons p rest ih =>
    obtain ⟨k, v⟩ := p
    intro st hs hnd habs
    have hs1 : dbSorted (set_item k v st) := dbSorted_dbPut _ _ hs
    rw [List.map_cons, List.nodup_cons] at hnd
    obtain ⟨hknotin, hnd'⟩ := hnd
    have hk_not : ∀ q ∈ rest, serialize q.1 ≠ serialize k := by
      intro q hq he
      exact hknotin (List.mem_map.mpr ⟨q, hq, he⟩)
    have habs' : ∀ q ∈ rest, dbGet (serialize q.1) (set_item k v st) = none := by
      intro q hq
      show dbGet (serialize q.1) (dbPut (serialize k) (compress v) st) = none
      rw [dbGet_dbPut_ne _ _ (hk_not q hq)]
      exact habs q (List.mem_cons_of_mem _ hq)
    obtain ⟨s1, s2, s3, s4⟩ := ih (set_item k v st) hs1 hnd' habs'
    have hlen1 : (set_item k v st).length = st.length + 1 :=
      length_dbPut_absent _ (habs (k, v) (List.mem_cons_self _ _))
    refine ⟨s1, ?_, ?_, ?_⟩
    · show (insertList rest (set_item k v st)).length = st.length + (rest.length + 1)
      rw [s2, hlen1]
      omega
    · intro q hq
      rcases List.mem_cons.mp hq with rfl | hq2
      · show (dbGet (serialize k) (insertList rest (set_item k v st))).isSome = true
        rw [s4 (serialize k) (fun p hp => (hk_not p hp).symm)]
        show (dbGet (serialize k) (dbPut (serialize k) (compress v) st)).isSome = true
        rw [dbGet_dbPut_self]
        rfl
      · exact s3 q hq2
    · intro b hb
      show dbGet b (insertList rest (set_item k v st)) = dbGet b st
      rw [s4 b (fun p hp => hb p (List.mem_cons_of_mem _ hp))]
      show dbGet b (dbPut (serialize k) (compress v) st) = dbGet b st
      exact dbGet_dbPut_ne _ _ (hb (k, v) (List.mem_cons_self _ _))

theorem deleteList_spec : ∀ (ms : List Value) (st : Store),
    dbSorted st → (ms.map serialize).Nodup →
    (∀ m ∈ ms, (dbGet (serialize m) st).isSome = true) →
    ∃ st', deleteList ms st = Except.ok st' ∧
      st'.length + ms.length = st.length ∧ dbSorted st' := by
  intro ms
  induction ms with
  | nil =>
    intro st hs _ _
    exact ⟨st, rfl, by simp, hs⟩
  | cons m rest ih =>
    intro st hs hnd hpres
    rw [List.map_cons, List.nodup_cons] at hnd
    obtain ⟨hmnotin, hnd'⟩ := hnd
    have hm : (dbGet (serialize m) st).isSome = true := hpres m (List.mem_cons_self _ _)
    cases hd : dbDelete (serialize m) st with
    | mk found st1 =>
      have hf : found = true := by
        have h2 := dbDelete_fst (serialize m) st
        rw [hd] at h2
        exact h2.trans hm
      subst hf
      have hdel : del_item m st = Except.ok st1 := by
        simp only [del_item, hd]
      have hs1 : dbSorted st1 := by
        have h3 := dbSorted_dbDelete (k := serialize m) hs
        rw [hd] at h3
        exact h3
      have hlen : st1.length + 1 = st.length := by
        have h3 := length_dbDelete (k := serialize m) hm
        rw [hd] at h3
        exact h3
      have hpres' : ∀ q ∈ rest, (dbGet (serialize q) st1).isSome = true := by
        intro q hq
        have hne : serialize q ≠ serialize m := by
          intro he
          exact hmnotin (List.mem_map.mpr ⟨q, hq, he⟩)
        have h3 := dbGet_dbDelete_ne hne st
        rw [hd] at h3
        rw [show dbGet (serialize q) st1 = dbGet (serialize q) st from h3]
        exact hpres q (List.mem_cons_of_mem _ hq)
      obtain ⟨st', h1, h2, h3⟩ := ih st1 hs1 hnd' hpres'
      refine ⟨st', ?_, by simp only [List.length_cons]; omega, h3⟩
      simp only [deleteList, hdel]
      exact h1

/-! ### The claims -/

/-- C1: for every supported structured value `v` (scalar, nested
sequence or keyed mapping), `decompress (compress v)` returns `v`
exactly; equivalently `get(k)` immediately after `set(k, v)` returns
`v` exactly, regardless of what was previously stored at `k`, since
single-key set overwrites the prior value in full. -/
theorem roundtrip_codec_and_set_get :
    (∀ v : Value, decompress (some (compress v)) = Except.ok v) ∧
    (∀ (k v : Value) (st : Store), get_item k (set_item k v st) = Except.ok v) :=
  ⟨decompress_compress, get_item_set_item_self⟩

/-- C2: `set_multi` has append-to-stored-list semantics: it reads the
stored sequence at the key (empty when absent, since `get` then
returns the empty list), appends the value as one new element, writes
the result back, and touches no other key; in particular
`set_multi(["x"], [1])` then `set_multi(["x"], [2])` from the empty
store makes `get("x")` return `[1, 2]`. -/
theorem set_multi_append_semantics :
    (∀ (k v : Value) (ks vs : List Value) (st : Store) (l : ValueList),
      ks.length = vs.length →
      get_item k st = Except.ok (Value.arr l) →
      set_multi (k :: ks) (v :: vs) st =
        set_multi ks vs
          (set_item k (Value.arr (l.append (ValueList.cons v ValueList.nil))) st)) ∧
    (∀ (k v : Value) (st : Store) (l : ValueList),
      get_item k st = Except.ok (Value.arr l) →
      exOk (set_multi [k] [v] st) = true ∧
      get_item k (runTxn (set_multi [k] [v] st) st) =
        Except.ok (Value.arr (l.append (ValueList.cons v ValueList.nil))) ∧
      (∀ q : Value, serialize q ≠ serialize k →
        get_item q (runTxn (set_multi [k] [v] st) st) = get_item q st)) ∧
    get_item (Value.str "x")
      (runTxn (set_multi [Value.str "x"] [Value.int 2]
          (runTxn (set_multi [Value.str "x"] [Value.int 1] emptyStore) emptyStore))
        (runTxn (set_multi [Value.str "x"] [Value.int 1] emptyStore) emptyStore)) =
      Except.ok (Value.arr (ValueList.cons (Value.int 1)
        (ValueList.cons (Value.int 2) ValueList.nil))) := by
  refine ⟨?_, ?_, ?_⟩
  · intro k v ks vs st l hlen h
    have h' : decompress (dbGet (serialize k) st) = Except.ok (Value.arr l) := h
    have hne : ¬((k :: ks).length ≠ (v :: vs).length) := by simp [hlen]
    have hne2 : ¬(ks.length ≠ vs.length) := by simp [hlen]
    simp only [set_multi, if_neg hne, if_neg hne2, List.zip_cons_cons]
    rw [setMultiGo_cons _ h']
    rfl
  · intro k v st l h
    have h' : decompress (dbGet (serialize k) st) = Except.ok (Value.arr l) := h
    have hmain : set_multi [k] [v] st =
        Except.ok (set_item k (Value.arr (l.append (ValueList.cons v ValueList.nil))) st) := by
      show setMultiGo [(k, v)] st = _
      rw [setMultiGo_cons [] h']
      rfl
    refine ⟨by rw [hmain]; rfl, ?_, ?_⟩
    · rw [hmain]
      exact get_item_set_item_self k _ st
    · intro q hq
      rw [hmain]
      exact get_item_set_item_ne hq _ st
  · rfl

/-- Witness for C2: appending to a fresh key on the empty store
succeeds and stores a one-element list. -/
theorem set_multi_append_semantics_witness :
    exOk (set_multi [Value.int 7] [Value.int 8] emptyStore) = true ∧
    get_item (Value.int 7) (runTxn (set_multi [Value.int 7] [Value.int 8] emptyStore) emptyStore) =
      Except.ok (Value.arr (ValueList.nil.append (ValueList.cons (Value.int 8) ValueList.nil))) := by
  have h := set_multi_append_semantics.2.1 (Value.int 7) (Value.int 8) emptyStore ValueList.nil rfl
  exact ⟨h.1, h.2.1⟩

/-- C3: a read of any absent key returns the empty-list default and
never raises and never returns a `None`-like absence signal; at the
codec layer, `decompress` of an absent (`None`) or empty byte string
yields the empty-list default rather than failing. -/
theorem absent_key_returns_default :
    ∀ (k : Value) (st : Store),
      (contains_key k st = false → get_item k st = Except.ok (Value.arr ValueList.nil)) ∧
      decompress none = Except.ok (Value.arr ValueList.nil) ∧
      decompress (some []) = Except.ok (Value.arr ValueList.nil) :=
  fun _ _ => ⟨fun h => get_item_absent h, rfl, rfl⟩

/-- Witness for C3: a key never written reads back as the empty list. -/
theorem absent_key_returns_default_witness :
    get_item (Value.int 42) emptyStore = Except.ok (Value.arr ValueList.nil) ∧
    decompress none = Except.ok (Value.arr ValueList.nil) := by
  have h := absent_key_returns_default (Value.int 42) emptyStore
  exact ⟨h.1 rfl, h.2.1⟩

/-- C4: deleting a present key succeeds, removes the entry
(`contains` becomes false, the entry count drops by one); deleting an
absent key raises `KeyError` and leaves the store contents unchanged. -/
theorem delete_present_removes_absent_raises :
    ∀ (k : Value) (st : Store), dbSorted st →
      (contains_key k st = true →
        exOk (del_item k st) = true ∧
        contains_key k (runTxn (del_item k st) st) = false ∧
        lenEntries (runTxn (del_item k st) st) + 1 = lenEntries st) ∧
      (contains_key k st = false →
        del_item k st = Except.error PyErr.keyError ∧
        (dbDelete (serialize k) st).2 = st) := by
  intro k st hs
  constructor
  · intro hc
    have hc' : (dbGet (serialize k) st).isSome = true := hc
    cases hd : dbDelete (serialize k) st with
    | mk found st1 =>
      have h2 := dbDelete_fst (serialize k) st
      rw [hd] at h2
      have hf : found = true := h2.trans hc'
      subst hf
      have hdel : del_item k st = Except.ok st1 := by
        simp only [del_item, hd]
      have hnone : dbGet (serialize k) st1 = none := by
        have h3 := dbGet_dbDelete_self (serialize k) hs
        rw [hd] at h3
        exact h3
      have hlen : st1.length + 1 = st.length := by
        have h3 := length_dbDelete (k := serialize k) hc'
        rw [hd] at h3
        exact h3
      refine ⟨by rw [hdel]; rfl, ?_, ?_⟩
      · show (dbGet (serialize k) (runTxn (del_item k st) st)).isSome = false
        rw [hdel]
        show (dbGet (serialize k) st1).isSome = false
        rw [hnone]
        rfl
      · show (runTxn (del_item k st) st).length + 1 = st.length
        rw [hdel]
        exact hlen
  · intro hc
    have hc' : dbGet (serialize k) st = none := dbGet_none_of_not_contains hc
    constructor
    · cases hd : dbDelete (serialize k) st with
      | mk found st1 =>
        have h2 := dbDelete_fst (serialize k) st
        rw [hd] at h2
        rw [hc'] at h2
        have hf : found = false := h2
        subst hf
        simp only [del_item, hd]
    · exact dbDelete_snd_absent hc'

/-- Witness for C4: on a two-entry store, deleting a present key
succeeds and removes it; deleting an absent key raises `KeyError`. -/
theorem delete_present_removes_absent_raises_witness :
    exOk (del_item (Value.int 1) (set_item (Value.int 2) (Value.int 0)
      (set_item (Value.int 1) (Value.int 0) emptyStore))) = true ∧
    contains_key (Value.int 1)
      (runTxn (del_item (Value.int 1) (set_item (Value.int 2) (Value.int 0)
          (set_item (Value.int 1) (Value.int 0) emptyStore)))
        (set_item (Value.int 2) (Value.int 0)
          (set_item (Value.int 1) (Value.int 0) emptyStore))) = false ∧
    del_item (Value.int 3) (set_item (Value.int 2) (Value.int 0)
      (set_item (Value.int 1) (Value.int 0) emptyStore)) = Except.error PyErr.keyError := by
  have h := delete_present_removes_absent_raises (Value.int 1)
    (set_item (Value.int 2) (Value.int 0) (set_item (Value.int 1) (Value.int 0) emptyStore))
    (by unfold dbSorted; decide)
  have h2 := delete_present_removes_absent_raises (Value.int 3)
    (set_item (Value.int 2) (Value.int 0) (set_item (Value.int 1) (Value.int 0) emptyStore))
    (by unfold dbSorted; decide)
  exact ⟨(h.1 (by decide)).1, (h.1 (by decide)).2.1, (h2.2 (by decide)).1⟩

/-- C5: `set_multi` with mismatched key/value counts raises
`ValueError` before any write occurs, leaving the entire store
unchanged (every key still returns its prior value or the default). -/
theorem set_multi_length_mismatch :
    ∀ (ks vs : List Value) (st : Store), ks.length ≠ vs.length →
      set_multi ks vs st = Except.error PyErr.valueError ∧
      runTxn (set_multi ks vs st) st = st ∧
      (∀ k : Value, get_item k (runTxn (set_multi ks vs st) st) = get_item k st) := by
  intro ks vs st h
  have hmain : set_multi ks vs st = Except.error PyErr.valueError := by
    simp only [set_multi, if_pos h]
  exact ⟨hmain, by rw [hmain]; rfl, fun k => by rw [hmain]; rfl⟩

/-- Witness for C5: `set_multi(["a","b"], [1])` raises `ValueError`
and the store is unchanged. -/
theorem set_multi_length_mismatch_witness :
    set_multi [Value.str "a", Value.str "b"] [Value.int 1] emptyStore =
      Except.error PyErr.valueError ∧
    runTxn (set_multi [Value.str "a", Value.str "b"] [Value.int 1] emptyStore) emptyStore =
      emptyStore := by
  have h := set_multi_length_mismatch [Value.str "a", Value.str "b"] [Value.int 1]
    emptyStore (by decide)
  exact ⟨h.1, h.2.1⟩

/-- C6: `keys()`, `values()` and `items()` enumerate all stored
entries exactly once in byte-lexicographic order of the encoded keys,
independent of insertion order: on any reachable (sorted) state the
iterated encoded keys are strictly increasing and duplicate-free,
`items` is the pairing of `keys` and `values`, the invariant is
preserved by every write and delete starting from the empty store, and
single-key writes to distinct keys commute; inserting `"a"`, `"c"`,
`"b"` in that order yields keys `a`, `b`, `c`. -/
theorem iteration_byte_lex_order :
    dbSorted emptyStore ∧
    (∀ st : Store, dbSorted st →
      (st.map (fun e => e.1)).Pairwise (fun a b => bytesLt a b = true) ∧
      (st.map (fun e => e.1)).Nodup ∧
      storeItems st = (storeKeys st).zip (storeValues st) ∧
      (storeKeys st).length = lenEntries st ∧
      (∀ k v : Value, dbSorted (set_item k v st)) ∧
      (∀ k : Value, dbSorted (dbDelete (serialize k) st).2) ∧
      (∀ k1 v1 k2 v2 : Value, serialize k1 ≠ serialize k2 →
        set_item k1 v1 (set_item k2 v2 st) = set_item k2 v2 (set_item k1 v1 st))) ∧
    storeKeys (set_item (Value.str "b") (Value.int 3) (set_item (Value.str "c") (Value.int 2)
        (set_item (Value.str "a") (Value.int 1) emptyStore))) =
      [Except.ok (Value.str "a"), Except.ok (Value.str "b"), Except.ok (Value.str "c")] := by
  refine ⟨List.Pairwise.nil, fun st hst => ⟨?_, ?_, ?_, ?_, ?_, ?_, ?_⟩, ?_⟩
  · exact List.Pairwise.map _ (fun a b h => h) hst
  · exact List.Pairwise.imp (fun h => bytesLt_ne h) (List.Pairwise.map _ (fun a b h => h) hst)
  · simp [storeItems, storeKeys, storeValues, List.zip_map']
  · simp [storeKeys, lenEntries]
  · exact fun k v => dbSorted_dbPut _ _ hst
  · exact fun k => dbSorted_dbDelete hst
  · intro k1 v1 k2 v2 hne
    have hne' : serialize k2 ≠ serialize k1 := fun he => hne he.symm
    apply db_ext (dbSorted_dbPut _ _ (dbSorted_dbPut _ _ hst))
      (dbSorted_dbPut _ _ (dbSorted_dbPut _ _ hst))
    intro q
    show dbGet q (dbPut (serialize k1) (compress v1) (dbPut (serialize k2) (compress v2) st)) =
      dbGet q (dbPut (serialize k2) (compress v2) (dbPut (serialize k1) (compress v1) st))
    by_cases h1 : q = serialize k1
    · subst h1
      rw [dbGet_dbPut_self, dbGet_dbPut_ne _ _ hne, dbGet_dbPut_self]
    · by_cases h2 : q = serialize k2
      · subst h2
        rw [dbGet_dbPut_ne _ _ hne', dbGet_dbPut_self, dbGet_dbPut_self]
      · rw [dbGet_dbPut_ne _ _ h1, dbGet_dbPut_ne _ _ h2, dbGet_dbPut_ne _ _ h2,
          dbGet_dbPut_ne _ _ h1]
  · rfl

/-- Witness for C6: on the store built by inserting `"a"`, `"c"`,
`"b"`, the iterated encoded keys are strictly increasing and
duplicate-free. -/
theorem iteration_byte_lex_order_witness :
    ((set_item (Value.str "b") (Value.int 3) (set_item (Value.str "c") (Value.int 2)
        (set_item (Value.str "a") (Value.int 1) emptyStore))).map (fun e => e.1)).Pairwise
      (fun a b => bytesLt a b = true) ∧
    ((set_item (Value.str "b") (Value.int 3) (set_item (Value.str "c") (Value.int 2)
        (set_item (Value.str "a") (Value.int 1) emptyStore))).map (fun e => e.1)).Nodup := by
  have h := iteration_byte_lex_order.2.1 (set_item (Value.str "b") (Value.int 3)
    (set_item (Value.str "c") (Value.int 2) (set_item (Value.str "a") (Value.int 1) emptyStore)))
    (by unfold dbSorted; decide)
  exact ⟨h.1, h.2.1⟩

/-- C7: `get_multi(keys)` yields exactly one value per input key, in
input order — it equals the per-key `get` map — and each absent key
yields the empty-list default. -/
theorem get_multi_per_key_in_order :
    ∀ (ks : List Value) (st : Store),
      get_multi ks st = ks.map (fun k => get_item k st) ∧
      (get_multi ks st).length = ks.length ∧
      (∀ k : Value, contains_key k st = false →
        get_item k st = Except.ok (Value.arr ValueList.nil)) :=
  fun ks st => ⟨rfl, by simp [get_multi], fun _ h => get_item_absent h⟩

/-- Witness for C7: a one-key `get_multi` on the empty store yields
one default value. -/
theorem get_multi_per_key_in_order_witness :
    get_multi [Value.str "q"] emptyStore = [Value.str "q"].map (fun k => get_item k emptyStore) ∧
    get_item (Value.str "q") emptyStore = Except.ok (Value.arr ValueList.nil) := by
  have h := get_multi_per_key_in_order [Value.str "q"] emptyStore
  exact ⟨h.1, h.2.2 (Value.str "q") rfl⟩

/-- C8: the entry count equals the number of stored entries: after
inserting N distinct keys into an empty store and then deleting M of
them, `length()` returns N - M. -/
theorem length_tracks_inserts_and_deletes :
    ∀ (kvs : List (Value × Value)) (ms : List Value),
      (kvs.map (fun p => p.1)).Nodup → ms.Nodup →
      (∀ m ∈ ms, m ∈ kvs.map (fun p => p.1)) →
      exOk (deleteList ms (insertList kvs emptyStore)) = true ∧
      lenEntries (runTxn (deleteList ms (insertList kvs emptyStore))
          (insertList kvs emptyStore)) =
        kvs.length - ms.length := by
  intro kvs ms hnd1 hnd2 hmem
  have hnd1' : (kvs.map (fun p => serialize p.1)).Nodup := by
    have he : kvs.map (fun p => serialize p.1) = (kvs.map (fun p => p.1)).map serialize := by
      simp [List.map_map, Function.comp]
    rw [he]
    exact hnd1.map serialize_injective
  have hnd2' : (ms.map serialize).Nodup := hnd2.map serialize_injective
  obtain ⟨s1, s2, s3, s4⟩ := insertList_spec kvs emptyStore List.Pairwise.nil hnd1'
    (fun p _ => rfl)
  have hpres : ∀ m ∈ ms, (dbGet (serialize m) (insertList kvs emptyStore)).isSome = true := by
    intro m hm
    obtain ⟨p, hp, hpe⟩ := List.mem_map.mp (hmem m hm)
    have h3 := s3 p hp
    rw [hpe] at h3
    exact h3
  obtain ⟨st', h1, h2, _⟩ := deleteList_spec ms (insertList kvs emptyStore) s1 hnd2' hpres
  constructor
  · rw [h1]
    rfl
  · rw [h1]
    show st'.length = kvs.length - ms.length
    rw [s2] at h2
    have h0 : (emptyStore : Store).length = 0 := rfl
    omega

/-- Witness for C8: three distinct keys inserted, one deleted, leaves
an entry count of 3 - 1 = 2. -/
theorem length_tracks_inserts_and_deletes_witness :
    exOk (deleteList [Value.int 2]
      (insertList [(Value.int 1, Value.int 10), (Value.int 2, Value.int 20),
        (Value.str "z", Value.int 30)] emptyStore)) = true ∧
    lenEntries (runTxn (deleteList [Value.int 2]
        (insertList [(Value.int 1, Value.int 10), (Value.int 2, Value.int 20),
          (Value.str "z", Value.int 30)] emptyStore))
      (insertList [(Value.int 1, Value.int 10), (Value.int 2, Value.int 20),
        (Value.str "z", Value.int 30)] emptyStore)) =
      [(Value.int 1, Value.int 10), (Value.int 2, Value.int 20),
        (Value.str "z", Value.int 30)].length - [Value.int 2].length :=
  length_tracks_inserts_and_deletes
    [(Value.int 1, Value.int 10), (Value.int 2, Value.int 20), (Value.str "z", Value.int 30)]
    [Value.int 2] (by decide) (by decide) (by decide)

/-- C9: when a key holds a non-list value (e.g. a scalar written by
single-key set), a subsequent `set_multi` on that key fails — the
unguarded `val.append(value)` raises `AttributeError` — rather than
appending normally, and the aborted transaction leaves the store as it
was. -/
theorem set_multi_on_scalar_raises :
    ∀ (st : Store) (k v w : Value), Value.isArr v = false →
      set_multi [k] [w] (set_item k v st) = Except.error PyErr.attributeError ∧
      runTxn (set_multi [k] [w] (set_item k v st)) (set_item k v st) = set_item k v st := by
  intro st k v w hv
  have hget : decompress (dbGet (serialize k) (set_item k v st)) = Except.ok v := by
    show decompress (dbGet (serialize k) (dbPut (serialize k) (compress v) st)) = _
    rw [dbGet_dbPut_self]
    exact decompress_compress v
  have happ : listAppend v w = Except.error PyErr.attributeError := by
    cases v <;> first | rfl | simp [Value.isArr] at hv
  have hmain : set_multi [k] [w] (set_item k v st) = Except.error PyErr.attributeError := by
    show setMultiGo [(k, w)] (set_item k v st) = _
    simp only [setMultiGo, hget, happ]
  exact ⟨hmain, by rw [hmain]; rfl⟩

/-- Witness for C9: a key set to a scalar, then targeted by
`set_multi`, raises `AttributeError`. -/
theorem set_multi_on_scalar_raises_witness :
    set_multi [Value.str "k"] [Value.int 6] (set_item (Value.str "k") (Value.int 5) emptyStore) =
      Except.error PyErr.attributeError :=
  (set_multi_on_scalar_raises emptyStore (Value.str "k") (Value.int 5) (Value.int 6) rfl).1

/-- C10: within one `set_multi` call repeating the same key, each
later pair reads the value already appended by the earlier pair in the
same call, so all elements accumulate;
`set_multi(["x", "x"], [1, 2])` on the empty store makes `get("x")`
return `[1, 2]`. -/
theorem set_multi_same_key_accumulates :
    (∀ (k v1 v2 : Value) (st : Store) (l : ValueList),
      get_item k st = Except.ok (Value.arr l) →
      exOk (set_multi [k, k] [v1, v2] st) = true ∧
      get_item k (runTxn (set_multi [k, k] [v1, v2] st) st) =
        Except.ok (Value.arr (l.append (ValueList.cons v1
          (ValueList.cons v2 ValueList.nil))))) ∧
    get_item (Value.str "x")
      (runTxn (set_multi [Value.str "x", Value.str "x"] [Value.int 1, Value.int 2] emptyStore)
        emptyStore) =
      Except.ok (Value.arr (ValueList.cons (Value.int 1)
        (ValueList.cons (Value.int 2) ValueList.nil))) := by
  constructor
  · intro k v1 v2 st l h
    have h' : decompress (dbGet (serialize k) st) = Except.ok (Value.arr l) := h
    have hstep1 := setMultiGo_cons (k := k) (v := v1) [(k, v2)] h'
    have hget2 : decompress (dbGet (serialize k)
        (dbPut (serialize k)
          (compress (Value.arr (l.append (ValueList.cons v1 ValueList.nil)))) st)) =
        Except.ok (Value.arr (l.append (ValueList.cons v1 ValueList.nil))) := by
      rw [dbGet_dbPut_self]
      exact decompress_compress _
    have hstep2 := setMultiGo_cons (k := k) (v := v2) [] hget2
    have hassoc : (l.append (ValueList.cons v1 ValueList.nil)).append
        (ValueList.cons v2 ValueList.nil) =
        l.append (ValueList.cons v1 (ValueList.cons v2 ValueList.nil)) := by
      rw [ValueList.append_assoc]
      rfl
    have hmain : set_multi [k, k] [v1, v2] st =
        Except.ok (dbPut (serialize k)
          (compress (Value.arr ((l.append (ValueList.cons v1 ValueList.nil)).append
            (ValueList.cons v2 ValueList.nil))))
          (dbPut (serialize k)
            (compress (Value.arr (l.append (ValueList.cons v1 ValueList.nil)))) st)) := by
      show setMultiGo [(k, v1), (k, v2)] st = _
      rw [hstep1, hstep2]
      rfl
    constructor
    · rw [hmain]
      rfl
    · rw [hmain, hassoc]
      exact get_item_set_item_self k _ _
  · rfl

/-- Witness for C10: `set_multi` with the same fresh key twice stores
both elements in order. -/
theorem set_multi_same_key_accumulates_witness :
    exOk (set_multi [Value.int 4, Value.int 4] [Value.int 1, Value.int 2] emptyStore) = true ∧
    get_item (Value.int 4)
      (runTxn (set_multi [Value.int 4, Value.int 4] [Value.int 1, Value.int 2] emptyStore)
        emptyStore) =
      Except.ok (Value.arr (ValueList.nil.append (ValueList.cons (Value.int 1)
        (ValueList.cons (Value.int 2) ValueList.nil)))) :=
  set_multi_same_key_accumulates.1 (Value.int 4) (Value.int 1) (Value.int 2)
    emptyStore ValueList.nil rfl

end LMDBStore
